import Mathlib

/-!
Verification of the patch extraction and batching engine of
`neuron/generators.py` against its specification.

The source is embedded shallowly:

* a voxel value is a `Val` carrying its numeric payload together with the
  `nan` / `inf` flags that `np.isnan` / `np.isfinite` inspect;
* a patch (the element yielded by the external `pytools.patchlib.patch_gen`)
  is a flat `List Val`; batching, feature concatenation along the last axis
  (`np.concatenate(..., ndim-1)`) and stacking along the leading axis
  (`np.vstack`) become list append and list-of-lists construction;
* Python generators become total functions that, given the finite list of
  values the consumer will send (for coroutine `send`) or a step count,
  return the list of yielded batches together with the error, if any,
  that terminated the stream (`raise` becomes an error value).

Definitions keep the source's names where Lean allows it.
-/

/-- A numeric sample as seen by `np.isnan` / `np.isfinite`: its payload plus
the two flags the generators inspect. -/
structure Val where
  num : Int
  nan : Bool
  inf : Bool
deriving DecidableEq, Repr

/-- A sample is clean when `np.isnan` is false and `np.isfinite` is true. -/
def Val.clean (v : Val) : Bool := !v.nan && !v.inf

/-- A patch as yielded by the (external) patch enumerator: a flat list of
voxel samples.  The per-patch reshaping done by `patch`
(`np.squeeze` for `collapse_2d`, `_categorical_prep`) maps each patch
independently and never changes how many patches there are, so it is
abstracted away; batch bookkeeping is unaffected. -/
abbrev Patch := List Val

/-- One file of a volume directory, as `vol` sees it after `_load_medical_volume`
and `data_proc_fn`: its name, the shape of the processed volume, and the
sequence of patches the inner patch generator enumerates over it. -/
structure VFile where
  name : String
  shape : List Nat
  patches : List Patch
deriving DecidableEq, Repr

instance : Inhabited VFile := ⟨⟨"", [], []⟩⟩

/-! ## The `patch` generator, fixed batch size, `infinite=False`
(`generators.py` lines 167-228).

`batch_idx` starts at `-1` and is incremented after each patch is stacked,
so `batch_idx == batch_size - 1` is exactly `accumulated length = batch_size`.
After the grid is exhausted the partial batch, if nonempty, is yielded
(`if batch_idx >= 0`) and the loop breaks.  An empty grid raises
`Exception('generator was empty')` before anything is yielded. -/

/-- Inner loop of `patch` in fixed finite mode: walk the patch sequence,
stacking into the running batch and yielding whenever the accumulated
length reaches `B`; after exhaustion yield the nonempty leftover. -/
def patchGo (B : Nat) : List α → List α → List (List α)
  | [], acc => if acc.isEmpty then [] else [acc]
  | p :: ps, acc =>
    let acc' := acc ++ [p]
    if acc'.length = B then acc' :: patchGo B ps []
    else patchGo B ps acc'

/-- The `patch` generator with a fixed batch size and `infinite=False`:
checks `batch_size >= 1` (the assert at line 184), raises
`generator was empty` on an empty grid (line 222), otherwise yields the
chunked batches and terminates. -/
def patch_finite (ps : List α) (B : Nat) : Except String (List (List α)) :=
  if B < 1 then .error "batch_size should be at least 1"
  else if ps.isEmpty then .error "generator was empty"
  else .ok (patchGo B ps [])

/-- Realized sizes of the batches `patchGo` produces depend only on the
lengths of the accumulator and of the remaining patch sequence. -/
def glSizes (B : Nat) : Nat → Nat → List Nat
  | a, 0 => if a = 0 then [] else [a]
  | a, n + 1 => if a + 1 = B then B :: glSizes B 0 n else glSizes B (a + 1) n

theorem patchGo_map_length (B : Nat) :
    ∀ (ps acc : List α), (patchGo B ps acc).map List.length = glSizes B acc.length ps.length := by
  intro ps
  induction ps with
  | nil =>
    intro acc
    simp [patchGo, glSizes, List.isEmpty_iff, List.length_eq_zero]
    by_cases h : acc = [] <;> simp [h]
  | cons p ps ih =>
    intro acc
    have hl : (acc ++ [p]).length = acc.length + 1 := by simp
    simp only [patchGo, glSizes, hl]
    by_cases h : acc.length + 1 = B
    · rw [if_pos h, if_pos h, List.map_cons, hl, h]
      have := ih []
      simp only [List.length_nil] at this
      rw [this]
    · rw [if_neg h, if_neg h]
      have := ih (acc ++ [p])
      rwa [hl] at this

theorem glSizes_flat (B : Nat) (hB : 1 ≤ B) :
    ∀ n a, a < B →
      glSizes B a n =
        if a + n < B then (if a + n = 0 then [] else [a + n])
        else B :: glSizes B 0 (a + n - B) := by
  intro n
  induction n with
  | zero =>
    intro a ha
    simp [glSizes, Nat.lt_of_lt_of_le ha (Nat.le_refl B), ha]
  | succ n ih =>
    intro a ha
    simp only [glSizes]
    by_cases h : a + 1 = B
    · rw [if_pos h]
      have h1 : ¬ (a + (n + 1) < B) := by omega
      rw [if_neg h1]
      have h2 : a + (n + 1) - B = n := by omega
      rw [h2]
    · have ha' : a + 1 < B := by omega
      rw [if_neg h, ih (a + 1) ha']
      have h3 : a + 1 + n = a + (n + 1) := by omega
      rw [h3]

theorem glSizes_closed (B : Nat) (hB : 1 ≤ B) :
    ∀ n, glSizes B 0 n =
      List.replicate (n / B) B ++ (if n % B = 0 then [] else [n % B]) := by
  intro n
  induction n using Nat.strong_induction_on with
  | _ n ih =>
    rw [glSizes_flat B hB n 0 hB]
    simp only [Nat.zero_add]
    by_cases h : n < B
    · rw [if_pos h, Nat.div_eq_of_lt h, Nat.mod_eq_of_lt h]
      simp only [List.replicate_zero, List.nil_append]
    · have hBn : B ≤ n := Nat.le_of_not_lt h
      rw [if_neg h]
      have hlt : n - B < n := by omega
      rw [ih (n - B) hlt]
      have hd : n / B = (n - B) / B + 1 := Nat.div_eq_sub_div hB hBn
      have hm : n % B = (n - B) % B := Nat.mod_eq_sub_mod hBn
      rw [hd, hm, List.replicate_succ, List.cons_append]

/-- C3: for a patch grid with `N ≥ 1` patches and fixed batch size `B ≥ 1`
in finite mode, `patch` yields exactly `⌈N/B⌉` batches, the first `⌊N/B⌋`
of realized size `B` and, when `N mod B ≠ 0`, a final one of realized size
`N mod B`; the output being a finite list, the stream then terminates. -/
theorem patch_finite_batch_sizes (ps : List α) (B : Nat)
    (hps : ps ≠ []) (hB : 1 ≤ B) :
    ∃ bs, patch_finite ps B = .ok bs ∧
      bs.map List.length =
        List.replicate (ps.length / B) B ++
          (if ps.length % B = 0 then [] else [ps.length % B]) ∧
      bs.length = (ps.length + B - 1) / B := by
  refine ⟨patchGo B ps [], ?_, ?_, ?_⟩
  · simp [patch_finite, List.isEmpty_iff, hps, Nat.not_lt.mpr hB, Nat.lt_irrefl]
  · have := patchGo_map_length B ps []
    simp only [List.length_nil] at this
    rw [this, glSizes_closed B hB]
  · have h1 : (patchGo B ps []).length = ((patchGo B ps []).map List.length).length := by
      simp
    rw [h1, patchGo_map_length B ps []]
    simp only [List.length_nil]
    rw [glSizes_closed B hB]
    have hmod := Nat.mod_lt ps.length (show 0 < B by omega)
    have hdm := Nat.div_add_mod ps.length B
    have hn1 : 1 ≤ ps.length := by
      cases ps with
      | nil => exact absurd rfl hps
      | cons a l => simp
    have key : (ps.length + B - 1) / B =
        ps.length / B + (if ps.length % B = 0 then 0 else 1) := by
      have hc : B * (ps.length / B) = ps.length / B * B := Nat.mul_comm _ _
      by_cases h : ps.length % B = 0
      · rw [if_pos h, Nat.add_zero]
        apply Nat.div_eq_of_lt_le
        · omega
        · rw [Nat.succ_mul]
          omega
      · rw [if_neg h]
        apply Nat.div_eq_of_lt_le
        · rw [Nat.add_mul, Nat.one_mul]
          omega
        · rw [Nat.succ_mul, Nat.add_mul, Nat.one_mul]
          omega
    rw [key]
    by_cases h : ps.length % B = 0
    · rw [if_pos h, if_pos h]
      simp
    · rw [if_neg h, if_neg h]
      simp

/-- Witness for `patch_finite_batch_sizes`: 7 patches, batch size 3 gives
batches of sizes `[3, 3, 1]`, i.e. `⌈7/3⌉ = 3` batches. -/
theorem patch_finite_batch_sizes_witness :
    ∃ bs, patch_finite [10, 11, 12, 13, 14, 15, 16] 3 = .ok bs ∧
      bs.map List.length =
        List.replicate (([10, 11, 12, 13, 14, 15, 16] : List Int).length / 3) 3 ++
          (if ([10, 11, 12, 13, 14, 15, 16] : List Int).length % 3 = 0 then []
           else [([10, 11, 12, 13, 14, 15, 16] : List Int).length % 3]) ∧
      bs.length = (([10, 11, 12, 13, 14, 15, 16] : List Int).length + 3 - 1) / 3 :=
  patch_finite_batch_sizes [10, 11, 12, 13, 14, 15, 16] 3 (by decide) (by decide)

/-! ## The `patch` generator, negotiated mode (`variable_batch_size=True`)
(`generators.py` lines 184-228, used by `vol_seg_prior` lines 451-469).

The generator first executes `batch_size = yield`, i.e. yields a sentinel
(`None`) and receives the first desired batch size from the consumer's
`send`; after every yielded batch it again receives the next desired size
(`batch_size_y = yield patch_data_batch`).  `sizes` below is the list of
integers the consumer sends, in order, starting with the handshake value;
the run stops when the consumer stops sending.  With `infinite=True` the
patch grid restarts from offset 0 whenever a pass ends.  A `send` of `0`
makes the Python loop spin forever (`batch_idx == batch_size - 1` is never
hit), which the step-indexed embedding reports as fuel exhaustion
(`none`). -/

/-- One consumer-driven run of `patch` in negotiated infinite mode, indexed
by fuel, where each unit of fuel lets the generator consume one patch.
`rest` is the unconsumed tail of the current grid pass; when it empties the
grid restarts (and an empty grid raises `generator was empty`). -/
def negoRunFuel (grid : List α) : Nat → List Nat → List α → List α →
    Option (Except String (List (List α)))
  | 0, _, _, _ => none
  | _ + 1, [], _, _ => some (.ok [])
  | fuel + 1, s :: sizes, rest, acc =>
    match (if rest.isEmpty then grid else rest) with
    | [] => some (.error "generator was empty")
    | p :: ps =>
      let acc' := acc ++ [p]
      if acc'.length = s then
        (negoRunFuel grid fuel sizes ps []).map (Except.map (fun bs => acc' :: bs))
      else negoRunFuel grid fuel (s :: sizes) ps acc'

/-- The `patch` generator opened with `variable_batch_size=True` and
`infinite=True`: the `batch_size >= 1` assert checks the constructor
argument `b0` (which the handshake then replaces), and the first grid pass
starts from the full grid. -/
def patch_variable (grid : List α) (b0 : Nat) (sizes : List Nat) (fuel : Nat) :
    Option (Except String (List (List α))) :=
  if b0 < 1 then some (.error "batch_size should be at least 1")
  else negoRunFuel grid fuel sizes grid []

theorem negoRunFuel_sizes (grid : List α) (hg : grid ≠ []) :
    ∀ fuel s sizes rest acc, 1 ≤ s → (∀ x ∈ sizes, 1 ≤ x) →
      acc.length < s → (s - acc.length) + sizes.sum < fuel →
      ∃ b bs, negoRunFuel grid fuel (s :: sizes) rest acc = some (.ok (b :: bs)) ∧
        b.length = s ∧ bs.map List.length = sizes := by
  intro fuel
  induction fuel with
  | zero =>
    intro s sizes rest acc _ _ _ hfuel
    exact absurd hfuel (Nat.not_lt_zero _)
  | succ fuel ih =>
    intro s sizes rest acc hs hsizes hacc hfuel
    have hnext : ∃ p ps, (if rest.isEmpty then grid else rest) = p :: ps := by
      cases rest with
      | nil =>
        cases grid with
        | nil => exact absurd rfl hg
        | cons g gs => exact ⟨g, gs, by simp⟩
      | cons r rs => exact ⟨r, rs, by simp⟩
    obtain ⟨p, ps, hp⟩ := hnext
    simp only [negoRunFuel, hp]
    by_cases hdone : (acc ++ [p]).length = s
    · rw [if_pos hdone]
      cases sizes with
      | nil =>
        refine ⟨acc ++ [p], [], ?_, hdone, rfl⟩
        have h1 : 1 ≤ fuel := by
          simp only [List.sum_nil] at hfuel
          omega
        cases fuel with
        | zero => omega
        | succ fuel' => simp [negoRunFuel, Except.map]
      | cons s' sizes' =>
        have h1 : 1 ≤ s' := hsizes s' (by simp)
        have h2 : ∀ x ∈ sizes', 1 ≤ x := fun x hx => hsizes x (by simp [hx])
        have h3 : ([] : List α).length < s' := by simpa using h1
        have h4 : (s' - ([] : List α).length) + sizes'.sum < fuel := by
          simp only [List.sum_cons] at hfuel
          simp only [List.length_nil, Nat.sub_zero]
          omega
        obtain ⟨b, bs, heq, hb, hbs⟩ := ih s' sizes' ps [] h1 h2 h3 h4
        refine ⟨acc ++ [p], b :: bs, ?_, hdone, ?_⟩
        · rw [heq]
          rfl
        · simp [hb, hbs]
    · rw [if_neg hdone]
      have hlen : (acc ++ [p]).length = acc.length + 1 := by simp
      have h3 : (acc ++ [p]).length < s := by
        rw [hlen]
        omega
      have h4 : (s - (acc ++ [p]).length) + sizes.sum < fuel := by
        rw [hlen]
        omega
      exact ih s sizes ps (acc ++ [p]) hs hsizes h3 h4

/-- C2: a `patch` stream opened in negotiated mode, after the handshake,
yields one batch per sent size, and every yielded batch's realized size
equals the most recently sent desired size — for any sequence of sent
sizes (all at least 1), in particular for three consecutive distinct ones
such as 4, 1, 4. -/
theorem patch_variable_realized_sizes (grid : List α) (b0 : Nat) (sizes : List Nat)
    (hg : grid ≠ []) (hb0 : 1 ≤ b0) (hsizes : ∀ s ∈ sizes, 1 ≤ s) :
    ∃ bs, patch_variable grid b0 sizes (sizes.sum + 1) = some (.ok bs) ∧
      bs.map List.length = sizes := by
  unfold patch_variable
  rw [if_neg (by omega)]
  cases sizes with
  | nil =>
    refine ⟨[], ?_, rfl⟩
    simp [negoRunFuel]
  | cons s sizes' =>
    have h1 : 1 ≤ s := hsizes s (by simp)
    have h2 : ∀ x ∈ sizes', 1 ≤ x := fun x hx => hsizes x (by simp [hx])
    have h3 : ([] : List α).length < s := by simpa using h1
    have h4 : (s - ([] : List α).length) + sizes'.sum < (s :: sizes').sum + 1 := by
      simp only [List.sum_cons, List.length_nil, Nat.sub_zero]
      omega
    obtain ⟨b, bs, heq, hb, hbs⟩ := negoRunFuel_sizes grid hg _ s sizes' grid [] h1 h2 h3 h4
    exact ⟨b :: bs, heq, by simp [hb, hbs]⟩

/-- Witness for `patch_variable_realized_sizes`: a 3-patch grid asked for
sizes 4, 1, 4 in sequence yields batches of realized sizes 4, 1, 4. -/
theorem patch_variable_realized_sizes_witness :
    ∃ bs, patch_variable [0, 1, 2] 1 [4, 1, 4] ([4, 1, 4].sum + 1) = some (.ok bs) ∧
      bs.map List.length = [4, 1, 4] :=
  patch_variable_realized_sizes [0, 1, 2] 1 [4, 1, 4] (by decide) (by decide)
    (by decide)

/-! ## The volume loader `_load_medical_volume` (`generators.py` lines 977-993).

The function dispatches on the extension string: `.npz` reads the
`vol_data` entry of a numpy archive, `npy` (no leading dot) reads a raw
numpy array, and `.mgz` / `.nii` / `.nii.gz` all go through the nibabel
medical reader; anything else raises `ValueError("Unexpected extension ...")`.
The actual file decoding is external I/O; the embedded function returns
which decode path is chosen. -/

inductive LoadMethod where
  | npzArchive
  | rawNpy
  | nibabelRead
deriving DecidableEq, Repr

/-- Extension dispatch of `_load_medical_volume`. -/
def load_medical_volume_dispatch (ext : String) : Except String LoadMethod :=
  if ext = ".npz" then .ok .npzArchive
  else if ext = "npy" then .ok .rawNpy
  else if ext = ".mgz" ∨ ext = ".nii" ∨ ext = ".nii.gz" then .ok .nibabelRead
  else .error ("Unexpected extension " ++ ext)

/-- C8: the volume loader accepts each of the five container formats —
npz-array (`.npz`), raw-npy-array (`npy`), NIfTI-plain (`.nii`),
NIfTI-compressed (`.nii.gz`) and legacy-MGZ (`.mgz`) — and fails with an
unsupported-format error on every other extension string. -/
theorem load_medical_volume_dispatch_formats :
    load_medical_volume_dispatch ".npz" = .ok .npzArchive ∧
    load_medical_volume_dispatch "npy" = .ok .rawNpy ∧
    load_medical_volume_dispatch ".nii" = .ok .nibabelRead ∧
    load_medical_volume_dispatch ".nii.gz" = .ok .nibabelRead ∧
    load_medical_volume_dispatch ".mgz" = .ok .nibabelRead ∧
    ∀ ext : String, ext ∉ [".npz", "npy", ".mgz", ".nii", ".nii.gz"] →
      load_medical_volume_dispatch ext = .error ("Unexpected extension " ++ ext) := by
  refine ⟨rfl, rfl, rfl, rfl, rfl, ?_⟩
  intro ext hext
  simp only [List.mem_cons, List.mem_singleton, not_or] at hext
  obtain ⟨h1, h2, h3, h4, h5⟩ := hext
  simp [load_medical_volume_dispatch, h1, h2, h3, h4, h5]

/-- Witness for `load_medical_volume_dispatch_formats`: the unrecognized
extension `.npy` (with a leading dot) is rejected. -/
theorem load_medical_volume_dispatch_formats_witness :
    load_medical_volume_dispatch ".npy" = .error ("Unexpected extension " ++ ".npy") :=
  load_medical_volume_dispatch_formats.2.2.2.2.2 ".npy" (by decide)

/-! ## The `vol` generator (`generators.py` lines 31-164).

`vol` iterates file steps forever: at step `i` it sets
`fileidx = i % nb_restart_cycle`, loads and processes the file, and walks
its patches through the inner `patch` generator (`batch_size=1`,
`infinite=False`), which yields each patch singly and raises
`generator was empty` when the patch grid of the file is empty.  For each
patch it asserts the absence of not-a-number and infinite values (naming
the offending file), concatenates `nb_feats` consecutive patches along the
last axis into one sample, stacks samples into the running batch, and
yields the batch when it is full (`batch_idx == batch_size - 1`) or when
`yield_incomplete_final_batch` is set and the current file is the last of
the cycle (`(fileidx + 1) % nb_restart_cycle == 0`).  `batch_idx`,
`feat_idx` and the accumulators persist across files and cycles.

The embedding runs a finite number `n` of file steps and returns the
yielded batches, the final generator state, and the error, if any, that
terminated the stream. -/

/-- A patch is clean when no voxel is flagged not-a-number or infinite. -/
def CleanPatch (p : Patch) : Prop := ∀ v ∈ p, v.clean = true

instance (p : Patch) : Decidable (CleanPatch p) := List.decidableBAll _ p

/-- Loop state of `vol`: `batchAcc` is `vol_data_batch` as a list of samples
(`batch_idx = batchAcc.length - 1`), `featAcc` is `vol_data_feats`, and
`featIdx` is `feat_idx`. -/
structure VolState where
  batchAcc : List (List Val)
  featAcc : List Val
  featIdx : Nat
deriving DecidableEq, Repr

/-- The assert-free part of `vol`'s per-patch processing (lines 136-161):
feature concatenation along the last axis, batch stacking, and the
batch-done / final-batch yield decision. -/
def volStepPure (B L k : Nat) (yInc : Bool) (fileidx : Nat) (st : VolState)
    (p : Patch) : VolState × Option (List (List Val)) :=
  let feats := if st.featIdx % k = 0 then p else st.featAcc ++ p
  let fIdx := st.featIdx + 1
  if fIdx % k = 0 then
    let bAcc := st.batchAcc ++ [feats]
    if bAcc.length = B ∨ (yInc = true ∧ (fileidx + 1) % L = 0) then
      (⟨[], feats, fIdx⟩, some bAcc)
    else
      (⟨bAcc, feats, fIdx⟩, none)
  else
    (⟨st.batchAcc, feats, fIdx⟩, none)

/-- Processing of one patch inside `vol`'s inner loop (lines 131-161):
the nan/inf asserts naming the offending file, then the assert-free
batching step. -/
def volPatchStep (B L k : Nat) (yInc : Bool) (fileidx : Nat) (fname : String)
    (st : VolState) (p : Patch) :
    Except String (VolState × Option (List (List Val))) :=
  if p.any (·.nan) then .error ("Found a nan for " ++ fname)
  else if !(p.all fun v => !v.nan && !v.inf) then .error ("Found a inf for " ++ fname)
  else .ok (volStepPure B L k yInc fileidx st p)

/-- `vol`'s walk over the patches of one file: collects the yielded batches,
threads the state, and stops at the first failed assert. -/
def volPatchFold (B L k : Nat) (yInc : Bool) (fileidx : Nat) (fname : String) :
    List Patch → VolState → List (List (List Val)) × VolState × Option String
  | [], st => ([], st, none)
  | p :: ps, st =>
    match volPatchStep B L k yInc fileidx fname st p with
    | .error e => ([], st, some e)
    | .ok (st', out) =>
      let r := volPatchFold B L k yInc fileidx fname ps st'
      (out.toList ++ r.1, r.2)

/-- One file step of `vol`: pick the file of the current cycle position and
walk its patches; an empty patch grid raises the inner `patch` generator's
`generator was empty` before anything is yielded. -/
def volFileStep (B L k : Nat) (yInc : Bool) (files : List VFile) (i : Nat)
    (st : VolState) : List (List (List Val)) × VolState × Option String :=
  let f := files.getD (i % L) default
  if f.patches.isEmpty then ([], st, some "generator was empty")
  else volPatchFold B L k yInc (i % L) f.name f.patches st

/-- `n` file steps of `vol`'s infinite loop, starting at step index `i`. -/
def volRun (B L k : Nat) (yInc : Bool) (files : List VFile) :
    Nat → Nat → VolState → List (List (List Val)) × VolState × Option String
  | 0, _, st => ([], st, none)
  | n + 1, i, st =>
    match volFileStep B L k yInc files i st with
    | (outs, st', none) =>
      let r := volRun B L k yInc files n (i + 1) st'
      (outs ++ r.1, r.2)
    | (outs, st', some e) => (outs, st', some e)

/-- Modelled from the spec: `pytools.patchlib.gridsize` is not part of the
source tree; per the spec the dense patch grid has, on each axis
independently, offsets `0, stride, ...` up to the last `o` with
`o + patch_shape <= volume_shape`, so the axis count is
`(V - P) / S + 1` when `P <= V` and `0` when `P > V`, and the total patch
count is the product over the axes. -/
def gridsizeSpec : List Nat → List Nat → List Nat → List Nat
  | v :: vs, p :: ps, s :: ss =>
    (if p ≤ v then (v - p) / s + 1 else 0) :: gridsizeSpec vs ps ss
  | _, _, _ => []

/-- The `vol` generator: the construction-time part (lines 60-87: nonempty
file list, patches-per-volume from the first file's grid, default restart
cycle, the cycle-capacity assert) followed by `n` file steps of the loop. -/
def volGen (files : List VFile) (patch_size : Option (List Nat))
    (patch_stride : List Nat) (batch_size : Nat) (nb_restart_cycle : Option Nat)
    (nb_feats : Nat) (yield_incomplete_final_batch : Bool) (n : Nat) :
    List (List (List Val)) × Option String :=
  match files with
  | [] => ([], some "Could not find any files")
  | f0 :: _ =>
    let nb_patches_per_vol :=
      match patch_size with
      | some ps => (gridsizeSpec f0.shape ps patch_stride).prod
      | none => 1
    let L := nb_restart_cycle.getD files.length
    if files.length * nb_patches_per_vol < L then ([], some "restart cycle too big")
    else
      let r := volRun batch_size L nb_feats yield_incomplete_final_batch files n 0 ⟨[], [], 0⟩
      (r.1, r.2.2)

/-- The three 8x8x8 volumes of the end-to-end scenario: patch (4,4,4),
stride (4,4,4) gives 8 patches per volume; patch contents are distinct
clean values. -/
def c1patches (i : Nat) : List Patch :=
  (List.range 8).map fun t => [⟨Int.ofNat (i * 8 + t), false, false⟩]

def c1files : List VFile :=
  [⟨"vol0.npz", [8, 8, 8], c1patches 0⟩,
   ⟨"vol1.npz", [8, 8, 8], c1patches 1⟩,
   ⟨"vol2.npz", [8, 8, 8], c1patches 2⟩]

/-- C1 (counterexample): in the end-to-end scenario — 3 volumes of 8
patches each, batch size 5, `yield_incomplete_final_batch=True`,
`nb_restart_cycle=3` — the realized batch sizes over one full cycle of 24
patches are not `[5, 5, 5, 5, 4]`. -/
theorem vol_cycle_sizes_counterexample :
    ¬ ((volGen c1files (some [4, 4, 4]) [4, 4, 4] 5 (some 3) 1 true 3).1.map
        List.length = [5, 5, 5, 5, 4]) := by decide

/-- C1 (amended): in the end-to-end scenario the stream yields, over one
full cycle of 24 patches, batches of realized sizes
`[5, 5, 5, 2, 1, 1, 1, 1, 1, 1, 1]` — once the cycle reaches its last
file, `files_done` holds for every patch of that file, so each completed
sample is flushed immediately — and the same sequence repeats identically
on the next cycle; the 8-patches-per-volume premise holds for the
spec-modelled grid. -/
theorem vol_cycle_sizes_amended :
    (gridsizeSpec [8, 8, 8] [4, 4, 4] [4, 4, 4]).prod = 8 ∧
    (volGen c1files (some [4, 4, 4]) [4, 4, 4] 5 (some 3) 1 true 3).1.map
        List.length = [5, 5, 5, 2, 1, 1, 1, 1, 1, 1, 1] ∧
    (volGen c1files (some [4, 4, 4]) [4, 4, 4] 5 (some 3) 1 true 3).2 = none ∧
    (volGen c1files (some [4, 4, 4]) [4, 4, 4] 5 (some 3) 1 true 6).1.map
        List.length =
      [5, 5, 5, 2, 1, 1, 1, 1, 1, 1, 1] ++ [5, 5, 5, 2, 1, 1, 1, 1, 1, 1, 1] ∧
    (volGen c1files (some [4, 4, 4]) [4, 4, 4] 5 (some 3) 1 true 6).2 = none := by
  refine ⟨by decide, by decide, by decide, by decide, by decide⟩

/-- C7: a restart cycle length larger than `file_count * patches_per_file`
(the latter computed from the first file's patch grid) fails the
construction-time assert of `vol` before any batch is yielded. -/
theorem vol_restart_cycle_too_big (f0 : VFile) (rest : List VFile)
    (psz stride : List Nat) (B cyc k n : Nat) (yInc : Bool)
    (h : (f0 :: rest).length * (gridsizeSpec f0.shape psz stride).prod < cyc) :
    volGen (f0 :: rest) (some psz) stride B (some cyc) k yInc n =
      ([], some "restart cycle too big") := by
  simp only [volGen, Option.getD_some, if_pos h]

/-- Witness for `vol_restart_cycle_too_big`: one 8x8x8 volume with a
(4,4,4)/(4,4,4) patch grid holds 8 patches, so a restart cycle of 9 is
rejected with no batch yielded. -/
theorem vol_restart_cycle_too_big_witness :
    volGen [⟨"vol0.npz", [8, 8, 8], c1patches 0⟩] (some [4, 4, 4]) [4, 4, 4]
        5 (some 9) 1 true 5 = ([], some "restart cycle too big") :=
  vol_restart_cycle_too_big ⟨"vol0.npz", [8, 8, 8], c1patches 0⟩ [] [4, 4, 4]
    [4, 4, 4] 5 9 1 5 true (by decide)

theorem volPatchStep_clean (B L k : Nat) (yInc : Bool) (fileidx : Nat)
    (fname : String) (st : VolState) (p : Patch) (hp : CleanPatch p) :
    volPatchStep B L k yInc fileidx fname st p =
      .ok (volStepPure B L k yInc fileidx st p) := by
  have h1 : p.any (fun v => v.nan) = false := by
    rw [List.any_eq_false]
    intro v hv
    have := hp v hv
    simp only [Val.clean, Bool.and_eq_true, Bool.not_eq_true'] at this
    simp [this.1]
  have h2 : p.all (fun v => !v.nan && !v.inf) = true := by
    rw [List.all_eq_true]
    intro v hv
    exact hp v hv
  simp [volPatchStep, h1, h2]

theorem volPatchStep_dirty (B L k : Nat) (yInc : Bool) (fileidx : Nat)
    (fname : String) (st : VolState) (p : Patch) (hp : ¬ CleanPatch p) :
    volPatchStep B L k yInc fileidx fname st p =
        .error ("Found a nan for " ++ fname) ∨
      volPatchStep B L k yInc fileidx fname st p =
        .error ("Found a inf for " ++ fname) := by
  by_cases h1 : p.any (fun v => v.nan) = true
  · left
    simp [volPatchStep, h1]
  · right
    have h1' : p.any (fun v => v.nan) = false := by
      cases h : p.any (fun v => v.nan) with
      | false => rfl
      | true => exact absurd h h1
    have h2 : p.all (fun v => !v.nan && !v.inf) = false := by
      rw [List.all_eq_false]
      rw [List.any_eq_false] at h1'
      unfold CleanPatch at hp
      push_neg at hp
      obtain ⟨v, hv, hvc⟩ := hp
      refine ⟨v, hv, ?_⟩
      simpa [Val.clean] using hvc
    simp [volPatchStep, h1', h2]

theorem volPatchFold_append (B L k : Nat) (yInc : Bool) (fileidx : Nat)
    (fname : String) : ∀ (xs ys : List Patch) (st : VolState),
    ((volPatchFold B L k yInc fileidx fname xs st).2.2 = none →
      volPatchFold B L k yInc fileidx fname (xs ++ ys) st =
        ((volPatchFold B L k yInc fileidx fname xs st).1 ++
          (volPatchFold B L k yInc fileidx fname ys
            (volPatchFold B L k yInc fileidx fname xs st).2.1).1,
         (volPatchFold B L k yInc fileidx fname ys
            (volPatchFold B L k yInc fileidx fname xs st).2.1).2)) ∧
    (∀ e, (volPatchFold B L k yInc fileidx fname xs st).2.2 = some e →
      volPatchFold B L k yInc fileidx fname (xs ++ ys) st =
        volPatchFold B L k yInc fileidx fname xs st) := by
  intro xs
  induction xs with
  | nil =>
    intro ys st
    constructor
    · intro _
      simp [volPatchFold]
    · intro e he
      simp [volPatchFold] at he
  | cons x xs ih =>
    intro ys st
    cases hstep : volPatchStep B L k yInc fileidx fname st x with
    | error e' =>
      constructor
      · intro hnone
        simp [volPatchFold, hstep] at hnone
      · intro e he
        simp only [List.cons_append, volPatchFold, hstep]
    | ok r =>
      constructor
      · intro hnone
        simp only [volPatchFold, hstep] at hnone
        simp only [List.cons_append, volPatchFold, hstep, List.append_eq]
        rw [(ih ys r.1).1 hnone]
        simp [List.append_assoc]
      · intro e he
        simp only [volPatchFold, hstep] at he
        simp only [List.cons_append, volPatchFold, hstep, List.append_eq]
        rw [(ih ys r.1).2 e he]

theorem volRun_add (B L k : Nat) (yInc : Bool) (files : List VFile) :
    ∀ (m n i : Nat) (st : VolState),
    ((volRun B L k yInc files m i st).2.2 = none →
      volRun B L k yInc files (m + n) i st =
        ((volRun B L k yInc files m i st).1 ++
          (volRun B L k yInc files n (i + m)
            (volRun B L k yInc files m i st).2.1).1,
         (volRun B L k yInc files n (i + m)
            (volRun B L k yInc files m i st).2.1).2)) ∧
    (∀ e, (volRun B L k yInc files m i st).2.2 = some e →
      volRun B L k yInc files (m + n) i st = volRun B L k yInc files m i st) := by
  intro m
  induction m with
  | zero =>
    intro n i st
    constructor
    · intro _
      simp [volRun, Nat.zero_add, Nat.add_zero]
    · intro e he
      simp [volRun] at he
  | succ m ih =>
    intro n i st
    have hm : m + 1 + n = (m + n) + 1 := by omega
    rw [hm]
    rcases hfs : volFileStep B L k yInc files i st with ⟨outs, st', err⟩
    cases err with
    | none =>
      constructor
      · intro hnone
        simp only [volRun, hfs] at hnone
        simp only [volRun, hfs]
        have hidx : i + 1 + m = i + (m + 1) := by omega
        rw [(ih n (i + 1) st').1 hnone, hidx]
        simp [List.append_assoc]
      · intro e he
        simp only [volRun, hfs] at he
        simp only [volRun, hfs]
        rw [(ih n (i + 1) st').2 e he]
    | some e' =>
      constructor
      · intro hnone
        simp [volRun, hfs] at hnone
      · intro e he
        simp only [volRun, hfs]

theorem volPatchFold_clean (B L k : Nat) (yInc : Bool) (fileidx : Nat)
    (fname : String) : ∀ (ps : List Patch) (st : VolState),
    (∀ p ∈ ps, CleanPatch p) →
    (volPatchFold B L k yInc fileidx fname ps st).2.2 = none := by
  intro ps
  induction ps with
  | nil =>
    intro st _
    simp [volPatchFold]
  | cons p ps ih =>
    intro st h
    have hp := h p (by simp)
    simp only [volPatchFold, volPatchStep_clean B L k yInc fileidx fname st p hp]
    exact ih _ (fun q hq => h q (by simp [hq]))

theorem volRun_clean (B L k : Nat) (yInc : Bool) (files : List VFile) :
    ∀ (m i : Nat) (st : VolState),
    (∀ t, t < m → (files.getD ((i + t) % L) default).patches ≠ [] ∧
      ∀ p ∈ (files.getD ((i + t) % L) default).patches, CleanPatch p) →
    (volRun B L k yInc files m i st).2.2 = none := by
  intro m
  induction m with
  | zero =>
    intro i st _
    simp [volRun]
  | succ m ih =>
    intro i st h
    have h0 := h 0 (by omega)
    simp only [Nat.add_zero] at h0
    have herr : (volFileStep B L k yInc files i st).2.2 = none := by
      unfold volFileStep
      rw [if_neg (by simpa [List.isEmpty_iff, List.getD] using h0.1)]
      exact volPatchFold_clean B L k yInc (i % L) _ _ st h0.2
    rcases hfs : volFileStep B L k yInc files i st with ⟨outs, st', err⟩
    rw [hfs] at herr
    simp only at herr
    subst herr
    simp only [volRun, hfs]
    refine ih (i + 1) st' (fun t ht => ?_)
    have := h (t + 1) (by omega)
    have hidx : i + (t + 1) = i + 1 + t := by omega
    rwa [hidx] at this

/-- Batches contain only clean values. -/
def CleanBatches (outs : List (List (List Val))) : Prop :=
  ∀ b ∈ outs, ∀ s ∈ b, ∀ v ∈ s, v.clean = true

/-- The accumulators of a `vol` state contain only clean values. -/
def CleanState (st : VolState) : Prop :=
  (∀ s ∈ st.batchAcc, ∀ v ∈ s, v.clean = true) ∧ (∀ v ∈ st.featAcc, v.clean = true)

theorem volPatchStep_ok_inv (B L k : Nat) (yInc : Bool) (fileidx : Nat)
    (fname : String) (st : VolState) (p : Patch)
    (r : VolState × Option (List (List Val)))
    (h : volPatchStep B L k yInc fileidx fname st p = .ok r) :
    CleanPatch p ∧ r = volStepPure B L k yInc fileidx st p := by
  unfold volPatchStep at h
  by_cases h1 : (p.any fun v => v.nan) = true
  · rw [if_pos h1] at h
    simp at h
  · rw [if_neg h1] at h
    by_cases h2 : (!p.all fun v => !v.nan && !v.inf) = true
    · rw [if_pos h2] at h
      simp at h
    · rw [if_neg h2] at h
      have hall : (p.all fun v => !v.nan && !v.inf) = true := by
        cases hx : p.all fun v => !v.nan && !v.inf with
        | true => rfl
        | false => simp [hx] at h2
      constructor
      · intro v hv
        have := List.all_eq_true.mp hall v hv
        simpa [Val.clean] using this
      · exact (Except.ok.inj h).symm

theorem volStepPure_clean (B L k : Nat) (yInc : Bool) (fileidx : Nat)
    (st : VolState) (p : Patch) (hp : CleanPatch p) (hst : CleanState st) :
    CleanState (volStepPure B L k yInc fileidx st p).1 ∧
    CleanBatches (volStepPure B L k yInc fileidx st p).2.toList := by
  have hfeats : ∀ v ∈ (if st.featIdx % k = 0 then p else st.featAcc ++ p),
      v.clean = true := by
    split
    · exact hp
    · intro v hv
      rcases List.mem_append.mp hv with h | h
      · exact hst.2 v h
      · exact hp v h
  have hbacc : ∀ s ∈ st.batchAcc ++ [if st.featIdx % k = 0 then p else st.featAcc ++ p],
      ∀ v ∈ s, v.clean = true := by
    intro s hs
    rcases List.mem_append.mp hs with h | h
    · exact hst.1 s h
    · intro v hv
      rw [List.mem_singleton] at h
      subst h
      exact hfeats v hv
  simp only [volStepPure]
  by_cases hk1 : (st.featIdx + 1) % k = 0
  · rw [if_pos hk1]
    by_cases hfl : (st.batchAcc ++ [if st.featIdx % k = 0 then p else st.featAcc ++ p]).length = B ∨
        (yInc = true ∧ (fileidx + 1) % L = 0)
    · rw [if_pos hfl]
      refine ⟨⟨by simp, hfeats⟩, ?_⟩
      intro b hb
      simp only [Option.toList_some, List.mem_singleton] at hb
      subst hb
      exact hbacc
    · rw [if_neg hfl]
      exact ⟨⟨hbacc, hfeats⟩, by simp [CleanBatches]⟩
  · rw [if_neg hk1]
    exact ⟨⟨hst.1, hfeats⟩, by simp [CleanBatches]⟩

theorem volPatchFold_clean_out (B L k : Nat) (yInc : Bool) (fileidx : Nat)
    (fname : String) : ∀ (ps : List Patch) (st : VolState), CleanState st →
    CleanBatches (volPatchFold B L k yInc fileidx fname ps st).1 ∧
    CleanState (volPatchFold B L k yInc fileidx fname ps st).2.1 := by
  intro ps
  induction ps with
  | nil =>
    intro st hst
    exact ⟨by simp [volPatchFold, CleanBatches], by simpa [volPatchFold] using hst⟩
  | cons p ps ih =>
    intro st hst
    cases hstep : volPatchStep B L k yInc fileidx fname st p with
    | error e =>
      simp only [volPatchFold, hstep]
      exact ⟨by simp [CleanBatches], hst⟩
    | ok r =>
      obtain ⟨hp, hr⟩ := volPatchStep_ok_inv B L k yInc fileidx fname st p r hstep
      have hpure := volStepPure_clean B L k yInc fileidx st p hp hst
      rw [← hr] at hpure
      simp only [volPatchFold, hstep]
      have hrec := ih r.1 hpure.1
      constructor
      · intro b hb
        rcases List.mem_append.mp hb with h | h
        · exact hpure.2 b h
        · exact hrec.1 b h
      · exact hrec.2

theorem volFileStep_clean_out (B L k : Nat) (yInc : Bool) (files : List VFile)
    (i : Nat) (st : VolState) (hst : CleanState st) :
    CleanBatches (volFileStep B L k yInc files i st).1 ∧
    CleanState (volFileStep B L k yInc files i st).2.1 := by
  simp only [volFileStep]
  split
  · exact ⟨by simp [CleanBatches], hst⟩
  · exact volPatchFold_clean_out B L k yInc (i % L) _ _ st hst

theorem volRun_clean_out (B L k : Nat) (yInc : Bool) (files : List VFile) :
    ∀ (n i : Nat) (st : VolState), CleanState st →
    CleanBatches (volRun B L k yInc files n i st).1 ∧
    CleanState (volRun B L k yInc files n i st).2.1 := by
  intro n
  induction n with
  | zero =>
    intro i st hst
    exact ⟨by simp [volRun, CleanBatches], by simpa [volRun] using hst⟩
  | succ n ih =>
    intro i st hst
    have hfs := volFileStep_clean_out B L k yInc files i st hst
    rcases heq : volFileStep B L k yInc files i st with ⟨outs, st', err⟩
    rw [heq] at hfs
    simp only at hfs
    cases err with
    | none =>
      simp only [volRun, heq]
      have hrec := ih (i + 1) st' hfs.2
      constructor
      · intro b hb
        rcases List.mem_append.mp hb with h | h
        · exact hfs.1 b h
        · exact hrec.1 b h
      · exact hrec.2
    | some e =>
      simp only [volRun, heq]
      exact hfs

theorem volPatchFold_dirty (B L k : Nat) (yInc : Bool) (fileidx : Nat)
    (fname : String) (pre : List Patch) (bad : Patch) (post : List Patch)
    (st : VolState) (hpre : ∀ p ∈ pre, CleanPatch p) (hbad : ¬ CleanPatch bad) :
    (volPatchFold B L k yInc fileidx fname (pre ++ bad :: post) st).2.2 =
        some ("Found a nan for " ++ fname) ∨
    (volPatchFold B L k yInc fileidx fname (pre ++ bad :: post) st).2.2 =
        some ("Found a inf for " ++ fname) := by
  have hclean := volPatchFold_clean B L k yInc fileidx fname pre st hpre
  have happ := (volPatchFold_append B L k yInc fileidx fname pre (bad :: post) st).1 hclean
  rw [happ]
  rcases volPatchStep_dirty B L k yInc fileidx fname
      (volPatchFold B L k yInc fileidx fname pre st).2.1 bad hbad with h | h
  · left
    simp only [volPatchFold, h]
  · right
    simp only [volPatchFold, h]

/-- C4: if the patches of the cycle's files are clean up to the first
not-a-number or infinite patch, `vol` stops at that patch with an assert
error naming the offending file, and every batch it ever yielded contains
only clean values — so no yielded batch contains the offending patch. -/
theorem vol_nan_inf_fail_fast (B L k n j : Nat) (yInc : Bool) (files : List VFile)
    (pre : List Patch) (bad : Patch) (post : List Patch)
    (hj : j < L) (hn : j < n)
    (hclean : ∀ t, t < j → (files.getD t default).patches ≠ [] ∧
      ∀ p ∈ (files.getD t default).patches, CleanPatch p)
    (hfile : (files.getD j default).patches = pre ++ bad :: post)
    (hpre : ∀ p ∈ pre, CleanPatch p)
    (hbad : ¬ CleanPatch bad) :
    ((volRun B L k yInc files n 0 ⟨[], [], 0⟩).2.2 =
        some ("Found a nan for " ++ (files.getD j default).name) ∨
     (volRun B L k yInc files n 0 ⟨[], [], 0⟩).2.2 =
        some ("Found a inf for " ++ (files.getD j default).name)) ∧
    CleanBatches (volRun B L k yInc files n 0 ⟨[], [], 0⟩).1 := by
  have hprefix : (volRun B L k yInc files j 0 ⟨[], [], 0⟩).2.2 = none := by
    apply volRun_clean
    intro t ht
    have h1 : (0 + t) % L = t := by
      rw [Nat.zero_add, Nat.mod_eq_of_lt (by omega)]
    rw [h1]
    exact hclean t ht
  have hsplit := (volRun_add B L k yInc files j (n - j) 0 ⟨[], [], 0⟩).1 hprefix
  have hnj : j + (n - j) = n := by omega
  rw [hnj] at hsplit
  obtain ⟨m, hm⟩ : ∃ m, n - j = m + 1 := ⟨n - j - 1, by omega⟩
  have hfidx : j % L = j := Nat.mod_eq_of_lt hj
  have hne : ¬ (files.getD j default).patches.isEmpty = true := by
    rw [hfile]
    simp
  have hfs : (volFileStep B L k yInc files j
        (volRun B L k yInc files j 0 ⟨[], [], 0⟩).2.1).2.2 =
          some ("Found a nan for " ++ (files.getD j default).name) ∨
      (volFileStep B L k yInc files j
        (volRun B L k yInc files j 0 ⟨[], [], 0⟩).2.1).2.2 =
          some ("Found a inf for " ++ (files.getD j default).name) := by
    have hd := volPatchFold_dirty B L k yInc j (files.getD j default).name
      pre bad post (volRun B L k yInc files j 0 ⟨[], [], 0⟩).2.1 hpre hbad
    rw [← hfile] at hd
    simpa only [volFileStep, hfidx, if_neg hne] using hd
  rcases hfstep : volFileStep B L k yInc files j
      (volRun B L k yInc files j 0 ⟨[], [], 0⟩).2.1 with ⟨fouts, fst, ferr⟩
  rw [hfstep] at hfs
  simp only at hfs
  have hferr : ∃ msg, ferr = some msg ∧
      (msg = "Found a nan for " ++ (files.getD j default).name ∨
       msg = "Found a inf for " ++ (files.getD j default).name) := by
    rcases hfs with h | h
    · exact ⟨_, h, Or.inl rfl⟩
    · exact ⟨_, h, Or.inr rfl⟩
  obtain ⟨msg, hmsg, hor⟩ := hferr
  subst hmsg
  have hcont : volRun B L k yInc files (n - j) j
      (volRun B L k yInc files j 0 ⟨[], [], 0⟩).2.1 = (fouts, fst, some msg) := by
    rw [hm]
    simp only [volRun, hfstep]
  constructor
  · rw [hsplit]
    simp only [Nat.zero_add]
    rw [hcont]
    rcases hor with h | h
    · left
      simp [h]
    · right
      simp [h]
  · exact (volRun_clean_out B L k yInc files n 0 ⟨[], [], 0⟩
      ⟨by simp, by simp⟩).1

/-- The file of the C4 witness: a clean patch followed by a patch whose
single voxel carries a not-a-number flag. -/
def c4files : List VFile :=
  [⟨"bad.npz", [2], [[⟨7, false, false⟩], [⟨0, true, false⟩]]⟩]

/-- Witness for `vol_nan_inf_fail_fast`: the one-file stream errors,
naming `bad.npz`, and yields only clean batches. -/
theorem vol_nan_inf_fail_fast_witness :
    ((volRun 1 1 1 true c4files 1 0 ⟨[], [], 0⟩).2.2 =
        some ("Found a nan for " ++ (c4files.getD 0 default).name) ∨
     (volRun 1 1 1 true c4files 1 0 ⟨[], [], 0⟩).2.2 =
        some ("Found a inf for " ++ (c4files.getD 0 default).name)) ∧
    CleanBatches (volRun 1 1 1 true c4files 1 0 ⟨[], [], 0⟩).1 :=
  vol_nan_inf_fail_fast 1 1 1 1 0 true c4files
    [[⟨7, false, false⟩]] [⟨0, true, false⟩] []
    (by decide) (by decide)
    (fun t ht => absurd ht (Nat.not_lt_zero t))
    (by decide)
    (by decide)
    (by decide)

theorem gridsizeSpec_zero : ∀ (V P S : List Nat) (i : Nat),
    V.length = P.length → V.length = S.length → i < V.length →
    V.getD i 0 < P.getD i 0 → (gridsizeSpec V P S).prod = 0 := by
  intro V
  induction V with
  | nil =>
    intro P S i _ _ hi
    simp at hi
  | cons v vs ih =>
    intro P S i hP hS hi hlt
    cases P with
    | nil => simp at hP
    | cons p ps =>
      cases S with
      | nil => simp at hS
      | cons s ss =>
        simp only [gridsizeSpec, List.prod_cons]
        cases i with
        | zero =>
          simp only [List.getD_cons_zero] at hlt
          rw [if_neg (by omega)]
          simp
        | succ i =>
          have := ih ps ss i (by simpa using hP) (by simpa using hS)
            (by simpa using hi) (by simpa using hlt)
          rw [this]
          simp

/-- C6: an empty patch grid is an error, not a silent skip — the `patch`
stream raises `generator was empty` instead of yielding, a patch shape
exceeding the volume shape on any axis makes the (spec-modelled) grid
count zero, and a `vol` stream whose cycle reaches a volume with zero
patches stops with the propagated error, yielding no batch beyond those of
the preceding files. -/
theorem empty_patch_grid_error (B L k n j : Nat) (yInc : Bool) (files : List VFile)
    (hj : j < L) (hn : j < n)
    (hclean : ∀ t, t < j → (files.getD t default).patches ≠ [] ∧
      ∀ p ∈ (files.getD t default).patches, CleanPatch p)
    (hempty : (files.getD j default).patches = []) :
    (∀ B' : Nat, 1 ≤ B' →
      patch_finite ([] : List Patch) B' = .error "generator was empty") ∧
    (∀ (V P S : List Nat) (i : Nat), V.length = P.length → V.length = S.length →
      i < V.length → V.getD i 0 < P.getD i 0 → (gridsizeSpec V P S).prod = 0) ∧
    (volRun B L k yInc files n 0 ⟨[], [], 0⟩).2.2 = some "generator was empty" ∧
    (volRun B L k yInc files n 0 ⟨[], [], 0⟩).1 =
      (volRun B L k yInc files j 0 ⟨[], [], 0⟩).1 := by
  refine ⟨?_, gridsizeSpec_zero, ?_⟩
  · intro B' hB'
    simp [patch_finite, Nat.not_lt.mpr hB']
  · have hprefix : (volRun B L k yInc files j 0 ⟨[], [], 0⟩).2.2 = none := by
      apply volRun_clean
      intro t ht
      have h1 : (0 + t) % L = t := by
        rw [Nat.zero_add, Nat.mod_eq_of_lt (by omega)]
      rw [h1]
      exact hclean t ht
    have hsplit := (volRun_add B L k yInc files j (n - j) 0 ⟨[], [], 0⟩).1 hprefix
    have hnj : j + (n - j) = n := by omega
    rw [hnj] at hsplit
    obtain ⟨m, hm⟩ : ∃ m, n - j = m + 1 := ⟨n - j - 1, by omega⟩
    have hfidx : j % L = j := Nat.mod_eq_of_lt hj
    have hfstep : volFileStep B L k yInc files j
        (volRun B L k yInc files j 0 ⟨[], [], 0⟩).2.1 =
        ([], (volRun B L k yInc files j 0 ⟨[], [], 0⟩).2.1,
          some "generator was empty") := by
      simp only [volFileStep, hfidx]
      rw [if_pos (by rw [hempty]; simp)]
    have hcont : volRun B L k yInc files (n - j) j
        (volRun B L k yInc files j 0 ⟨[], [], 0⟩).2.1 =
        ([], (volRun B L k yInc files j 0 ⟨[], [], 0⟩).2.1,
          some "generator was empty") := by
      rw [hm]
      simp only [volRun, hfstep]
    rw [hsplit]
    simp only [Nat.zero_add]
    rw [hcont]
    simp

/-- The files of the C6 witness: one clean one-patch volume, then a volume
whose patch grid is empty. -/
def c6files : List VFile :=
  [⟨"full.npz", [2], [[⟨3, false, false⟩]]⟩, ⟨"empty.npz", [2], []⟩]

/-- Witness for `empty_patch_grid_error`: a cycle of two files whose second
volume has no patches errors on its second step, keeping only the first
file's batches. -/
theorem empty_patch_grid_error_witness :
    (∀ B' : Nat, 1 ≤ B' →
      patch_finite ([] : List Patch) B' = .error "generator was empty") ∧
    (∀ (V P S : List Nat) (i : Nat), V.length = P.length → V.length = S.length →
      i < V.length → V.getD i 0 < P.getD i 0 → (gridsizeSpec V P S).prod = 0) ∧
    (volRun 1 2 1 true c6files 2 0 ⟨[], [], 0⟩).2.2 = some "generator was empty" ∧
    (volRun 1 2 1 true c6files 2 0 ⟨[], [], 0⟩).1 =
      (volRun 1 2 1 true c6files 1 0 ⟨[], [], 0⟩).1 :=
  empty_patch_grid_error 1 2 1 2 1 true c6files (by decide) (by decide)
    (by
      intro t ht
      have h0 : t = 0 := by omega
      subst h0
      exact ⟨by decide, by decide⟩)
    (by decide)

/-! ## Relabeling in `vol` (`generators.py` lines 111-116).

`relabel` is an array; the loop
`for idx, val in np.ndenumerate(relabel): vol_data[resized_seg_data_fix == val] = idx`
compares every voxel of a frozen copy of the volume against each array
entry `val` and overwrites the matching voxels of the live volume with the
entry's position `idx`.  Volumes are flat integer lists here; masked
assignment becomes a `zipWith` against the frozen original. -/

/-- One masked assignment `vol_data[orig == val] = idx`. -/
def applyRelabelMask (orig : List Int) (val : Int) (idx : Nat)
    (cur : List Int) : List Int :=
  List.zipWith (fun o c => if o = val then (idx : Int) else c) orig cur

/-- The `np.ndenumerate(relabel)` loop over the (index, value) pairs. -/
def relabelLoop (orig : List Int) : List (Nat × Int) → List Int → List Int
  | [], cur => cur
  | (idx, val) :: rest, cur =>
    relabelLoop orig rest (applyRelabelMask orig val idx cur)

/-- The full relabeling step of `vol`: freeze a copy of the volume, then
run the masked-assignment loop over the enumerated relabel array. -/
def relabelVol (relabel : List Int) (vol : List Int) : List Int :=
  relabelLoop vol relabel.enum vol

theorem applyRelabelMask_length (orig cur : List Int) (val : Int) (idx : Nat)
    (h : cur.length = orig.length) :
    (applyRelabelMask orig val idx cur).length = orig.length := by
  simp [applyRelabelMask, h]

theorem relabelLoop_length (orig : List Int) :
    ∀ (pairs : List (Nat × Int)) (cur : List Int), cur.length = orig.length →
      (relabelLoop orig pairs cur).length = orig.length := by
  intro pairs
  induction pairs with
  | nil =>
    intro cur h
    simpa [relabelLoop] using h
  | cons pv rest ih =>
    intro cur h
    rcases pv with ⟨idx, val⟩
    simp only [relabelLoop]
    exact ih _ (applyRelabelMask_length orig cur val idx h)

theorem applyRelabelMask_getD (orig cur : List Int) (val : Int) (idx : Nat)
    (i : Nat) (hi : i < orig.length) (h : cur.length = orig.length) :
    (applyRelabelMask orig val idx cur).getD i 0 =
      if orig.getD i 0 = val then (idx : Int) else cur.getD i 0 := by
  have hi2 : i < cur.length := by omega
  have hi3 : i < (applyRelabelMask orig val idx cur).length := by
    rw [applyRelabelMask_length orig cur val idx h]
    exact hi
  rw [List.getD_eq_getElem _ _ hi3, List.getD_eq_getElem _ _ hi,
    List.getD_eq_getElem _ _ hi2]
  simp [applyRelabelMask]

theorem mem_enumFrom_snd : ∀ (l : List Int) (s : Nat) (x : Nat × Int),
    x ∈ List.enumFrom s l → x.2 ∈ l := by
  intro l
  induction l with
  | nil =>
    intro s x hx
    simp [List.enumFrom] at hx
  | cons a l ih =>
    intro s x hx
    simp only [List.enumFrom, List.mem_cons] at hx
    rcases hx with h | h
    · subst h
      simp
    · exact List.mem_cons_of_mem a (ih (s + 1) x h)

theorem relabelLoop_notMem (orig : List Int) :
    ∀ (pairs : List (Nat × Int)) (cur : List Int) (i : Nat),
      cur.length = orig.length → i < orig.length →
      (∀ pv ∈ pairs, pv.2 ≠ orig.getD i 0) →
      (relabelLoop orig pairs cur).getD i 0 = cur.getD i 0 := by
  intro pairs
  induction pairs with
  | nil =>
    intro cur i _ _ _
    simp [relabelLoop]
  | cons pv rest ih =>
    intro cur i h hi hne
    rcases pv with ⟨idx, val⟩
    simp only [relabelLoop]
    have h1 := ih (applyRelabelMask orig val idx cur) i
      (applyRelabelMask_length orig cur val idx h) hi
      (fun q hq => hne q (by simp [hq]))
    rw [h1, applyRelabelMask_getD orig cur val idx i hi h]
    rw [if_neg ?_]
    intro hc
    exact hne (idx, val) (by simp) hc.symm

theorem relabelLoop_enumFrom_match (orig : List Int) :
    ∀ (rel : List Int) (s : Nat) (cur : List Int) (i j : Nat),
      cur.length = orig.length → i < orig.length → rel.Nodup →
      rel.get? j = some (orig.getD i 0) →
      (relabelLoop orig (List.enumFrom s rel) cur).getD i 0 = ((s + j : Nat) : Int) := by
  intro rel
  induction rel with
  | nil =>
    intro s cur i j _ _ _ hj
    simp at hj
  | cons v rest ih =>
    intro s cur i j h hi hnd hj
    simp only [List.enumFrom, relabelLoop]
    rw [List.nodup_cons] at hnd
    cases j with
    | zero =>
      simp only [List.get?] at hj
      have hv : v = orig.getD i 0 := by
        injection hj
      have hmask : (applyRelabelMask orig v s cur).getD i 0 = (s : Int) := by
        rw [applyRelabelMask_getD orig cur v s i hi h, if_pos hv.symm]
      rw [relabelLoop_notMem orig (List.enumFrom (s + 1) rest)
        (applyRelabelMask orig v s cur) i
        (applyRelabelMask_length orig cur v s h) hi ?_, hmask]
      · simp
      · intro pv hpv hc
        have := mem_enumFrom_snd rest (s + 1) pv hpv
        rw [hc, ← hv] at this
        exact hnd.1 this
    | succ j =>
      simp only [List.get?] at hj
      have horig : orig.getD i 0 ∈ rest := List.get?_mem hj
      have := ih (s + 1) (applyRelabelMask orig v s cur) i j
        (applyRelabelMask_length orig cur v s h) hi hnd.2 hj
      rw [this]
      congr 1
      omega

/-- C5: with a relabel array whose values are distinct, every voxel whose
value is the `j`-th entry of the array is replaced by the dense index `j`,
and every voxel whose value is not an entry of the array is left
untouched; the output volume has the input's length. -/
theorem vol_relabel (relabel vol : List Int) (hnd : relabel.Nodup) :
    (relabelVol relabel vol).length = vol.length ∧
    ∀ i, i < vol.length →
      ((∀ j, j < relabel.length → relabel.getD j 0 = vol.getD i 0 →
          (relabelVol relabel vol).getD i 0 = (j : Int)) ∧
       (vol.getD i 0 ∉ relabel →
          (relabelVol relabel vol).getD i 0 = vol.getD i 0)) := by
  constructor
  · exact relabelLoop_length vol relabel.enum vol rfl
  · intro i hi
    constructor
    · intro j hj hval
      have hget : relabel.get? j = some (vol.getD i 0) := by
        rw [List.get?_eq_get hj]
        congr 1
        rw [← hval, List.getD_eq_getElem _ _ hj]
        simp [List.get_eq_getElem]
      have := relabelLoop_enumFrom_match vol relabel 0 vol i j rfl hi hnd hget
      simpa [relabelVol, List.enum] using this
    · intro hnm
      have : ∀ pv ∈ relabel.enum, pv.2 ≠ vol.getD i 0 := by
        intro pv hpv hc
        have := mem_enumFrom_snd relabel 0 pv hpv
        rw [hc] at this
        exact hnm this
      exact relabelLoop_notMem vol relabel.enum vol i rfl hi this

/-- Witness for `vol_relabel`: the scenario of label values `{0, 5, 9}`
under the dense map `[0, 5, 9]` — the voxel of value 5 becomes 1, and a
voxel of value 7, not a key, passes through. -/
theorem vol_relabel_witness :
    (1 < ([0, 5, 9, 7] : List Int).length ∧ 1 < ([0, 5, 9] : List Int).length) ∧
    (relabelVol [0, 5, 9] [0, 5, 9, 7]).getD 1 0 = (1 : Int) ∧
    (relabelVol [0, 5, 9] [0, 5, 9, 7]).getD 3 0 = (7 : Int) :=
  ⟨⟨by decide, by decide⟩,
   ((vol_relabel [0, 5, 9] [0, 5, 9, 7] (by decide)).2 1 (by decide)).1 1
     (by decide) (by decide),
   ((vol_relabel [0, 5, 9] [0, 5, 9, 7] (by decide)).2 3 (by decide)).2
     (by decide)⟩

/-! ## `patch_size` fixation in `vol` (`generators.py` lines 118-128).

`patch_size` and `patch_stride` are parameters that the loop body
reassigns: on the first file with `patch_size is None` they are set to that
volume's shape and all-ones stride, and the assignment persists, so every
later file of the cycle reuses the first file's patch shape instead of its
own.  The embedding records, per file, the `(patch_size, patch_stride)`
pair handed to the inner patch generator. -/

def volPatchSizeSeq : List (List Nat) → Option (List Nat) × List Nat →
    List (List Nat × List Nat)
  | [], _ => []
  | shape :: rest, (none, _) =>
    (shape, shape.map fun _ => 1) ::
      volPatchSizeSeq rest (some shape, shape.map fun _ => 1)
  | shape :: rest, (some ps, str) => (ps, str) :: volPatchSizeSeq rest (some ps, str)

theorem volPatchSizeSeq_some (ps str : List Nat) :
    ∀ shapes : List (List Nat),
      volPatchSizeSeq shapes (some ps, str) = List.replicate shapes.length (ps, str) := by
  intro shapes
  induction shapes with
  | nil => simp [volPatchSizeSeq]
  | cons s rest ih => simp [volPatchSizeSeq, ih, List.replicate_succ]

/-- C9: when `patch_size` is not provided, the patch shape is fixed at the
first processed volume's shape with stride 1 on every axis, and that same
pair is reused for every subsequent file of the cycle instead of being
recomputed per volume. -/
theorem vol_patch_size_fixed (s0 : List Nat) (rest : List (List Nat))
    (str0 : List Nat) :
    volPatchSizeSeq (s0 :: rest) (none, str0) =
      List.replicate (rest.length + 1) (s0, s0.map fun _ => 1) := by
  simp [volPatchSizeSeq, volPatchSizeSeq_some, List.replicate_succ]

/-! ## Feature grouping in `vol` (`generators.py` lines 136-143).

`feat_idx` counts every patch ever produced, across files and cycles, and
is never reset; a sample is the concatenation of `nb_feats` consecutive
patches of that global stream (`vol_data_feats = lpatch` when
`feat_idx % nb_feats == 0`, else concatenate; the sample is complete when
the incremented counter hits a multiple of `nb_feats`).  `featGroups`
isolates exactly this per-patch counter/accumulator logic; its first
component is the list of completed samples, its second the final counter
and accumulator. -/

def featGroups (k : Nat) : List Patch → Nat → List Val →
    List (List Val) × Nat × List Val
  | [], m, acc => ([], m, acc)
  | p :: ps, m, acc =>
    let acc' := if m % k = 0 then p else acc ++ p
    if (m + 1) % k = 0 then
      let r := featGroups k ps (m + 1) acc'
      (acc' :: r.1, r.2)
    else featGroups k ps (m + 1) acc'

theorem featGroups_append (k : Nat) : ∀ (xs ys : List Patch) (m : Nat) (acc : List Val),
    featGroups k (xs ++ ys) m acc =
      ((featGroups k xs m acc).1 ++
        (featGroups k ys (featGroups k xs m acc).2.1 (featGroups k xs m acc).2.2).1,
       (featGroups k ys (featGroups k xs m acc).2.1 (featGroups k xs m acc).2.2).2) := by
  intro xs
  induction xs with
  | nil =>
    intro ys m acc
    simp [featGroups]
  | cons x xs ih =>
    intro ys m acc
    simp only [List.cons_append, featGroups, List.append_eq]
    by_cases h : (m + 1) % k = 0
    · rw [if_pos h, if_pos h]
      rw [ih ys (m + 1) (if m % k = 0 then x else acc ++ x)]
      simp
    · rw [if_neg h, if_neg h]
      exact ih ys (m + 1) (if m % k = 0 then x else acc ++ x)

theorem volPatchFold_featGroups (B L k : Nat) (yInc : Bool) (fileidx : Nat)
    (fname : String) : ∀ (ps : List Patch) (st : VolState),
    (∀ p ∈ ps, CleanPatch p) →
    (volPatchFold B L k yInc fileidx fname ps st).1.flatten ++
        (volPatchFold B L k yInc fileidx fname ps st).2.1.batchAcc =
      st.batchAcc ++ (featGroups k ps st.featIdx st.featAcc).1 ∧
    (volPatchFold B L k yInc fileidx fname ps st).2.1.featIdx =
      st.featIdx + ps.length ∧
    (volPatchFold B L k yInc fileidx fname ps st).2.1.featAcc =
      (featGroups k ps st.featIdx st.featAcc).2.2 := by
  intro ps
  induction ps with
  | nil =>
    intro st _
    simp [volPatchFold, featGroups]
  | cons p ps ih =>
    intro st h
    have hp := h p (by simp)
    have hrest : ∀ q ∈ ps, CleanPatch q := fun q hq => h q (by simp [hq])
    simp only [volPatchFold, volPatchStep_clean B L k yInc fileidx fname st p hp]
    simp only [volStepPure, featGroups]
    by_cases h1 : (st.featIdx + 1) % k = 0
    · rw [if_pos h1, if_pos h1]
      by_cases h2 : (st.batchAcc ++ [if st.featIdx % k = 0 then p else st.featAcc ++ p]).length = B ∨
          (yInc = true ∧ (fileidx + 1) % L = 0)
      · rw [if_pos h2]
        have := ih ⟨[], if st.featIdx % k = 0 then p else st.featAcc ++ p,
          st.featIdx + 1⟩ hrest
        simp only [List.nil_append] at this
        refine ⟨?_, ?_, ?_⟩
        · simp only [Option.toList_some, List.cons_append, List.flatten_cons]
          rw [← this.1]
          simp [List.append_assoc]
        · rw [this.2.1]
          simp only [List.length_cons]
          omega
        · exact this.2.2
      · rw [if_neg h2]
        have := ih ⟨st.batchAcc ++ [if st.featIdx % k = 0 then p else st.featAcc ++ p],
          if st.featIdx % k = 0 then p else st.featAcc ++ p, st.featIdx + 1⟩ hrest
        refine ⟨?_, ?_, ?_⟩
        · simp only [Option.toList_none, List.nil_append]
          rw [this.1]
          simp [List.append_assoc]
        · rw [this.2.1]
          simp only [List.length_cons]
          omega
        · exact this.2.2
    · rw [if_neg h1, if_neg h1]
      have := ih ⟨st.batchAcc, if st.featIdx % k = 0 then p else st.featAcc ++ p,
        st.featIdx + 1⟩ hrest
      refine ⟨?_, ?_, ?_⟩
      · simp only [Option.toList_none, List.nil_append]
        rw [this.1]
      · rw [this.2.1]
        simp only [List.length_cons]
        omega
      · exact this.2.2

/-- The global patch stream of `n` file steps of `vol`, in generation
order: the patches of the file at each successive cycle position. -/
def volGlobalPatches (files : List VFile) (L : Nat) : Nat → Nat → List Patch
  | 0, _ => []
  | n + 1, i => (files.getD (i % L) default).patches ++ volGlobalPatches files L n (i + 1)

theorem featGroups_featIdx (k : Nat) : ∀ (l : List Patch) (m : Nat) (acc : List Val),
    (featGroups k l m acc).2.1 = m + l.length := by
  intro l
  induction l with
  | nil =>
    intro m acc
    simp [featGroups]
  | cons p ps ih =>
    intro m acc
    simp only [featGroups]
    by_cases h : (m + 1) % k = 0
    · rw [if_pos h]
      simp only [ih]
      simp only [List.length_cons]
      omega
    · rw [if_neg h, ih]
      simp only [List.length_cons]
      omega

theorem volRun_featGroups (B L k : Nat) (yInc : Bool) (files : List VFile) :
    ∀ (n i : Nat) (st : VolState),
    (∀ t, t < n → (files.getD ((i + t) % L) default).patches ≠ [] ∧
      ∀ p ∈ (files.getD ((i + t) % L) default).patches, CleanPatch p) →
    (volRun B L k yInc files n i st).2.2 = none ∧
    (volRun B L k yInc files n i st).1.flatten ++
        (volRun B L k yInc files n i st).2.1.batchAcc =
      st.batchAcc ++
        (featGroups k (volGlobalPatches files L n i) st.featIdx st.featAcc).1 ∧
    (volRun B L k yInc files n i st).2.1.featIdx =
      st.featIdx + (volGlobalPatches files L n i).length ∧
    (volRun B L k yInc files n i st).2.1.featAcc =
      (featGroups k (volGlobalPatches files L n i) st.featIdx st.featAcc).2.2 := by
  intro n
  induction n with
  | zero =>
    intro i st _
    simp [volRun, volGlobalPatches, featGroups]
  | succ n ih =>
    intro i st h
    have h0 := h 0 (by omega)
    simp only [Nat.add_zero] at h0
    rcases heq : volPatchFold B L k yInc (i % L) (files.getD (i % L) default).name
        (files.getD (i % L) default).patches st with ⟨fouts, fst2, ferr⟩
    have hfold := volPatchFold_featGroups B L k yInc (i % L)
      (files.getD (i % L) default).name (files.getD (i % L) default).patches st h0.2
    have herr := volPatchFold_clean B L k yInc (i % L)
      (files.getD (i % L) default).name (files.getD (i % L) default).patches st h0.2
    rw [heq] at hfold herr
    simp only at hfold herr
    subst herr
    have hfs2 : volFileStep B L k yInc files i st = (fouts, fst2, none) := by
      simp only [volFileStep]
      rw [if_neg (by simpa [List.isEmpty_iff] using h0.1), heq]
    have hrec := ih (i + 1) fst2 (fun t ht => by
      have := h (t + 1) (by omega)
      have hidx : i + (t + 1) = i + 1 + t := by omega
      rwa [hidx] at this)
    simp only [volRun, hfs2]
    have hga := featGroups_append k (files.getD (i % L) default).patches
      (volGlobalPatches files L n (i + 1)) st.featIdx st.featAcc
    have hidx2 : fst2.featIdx =
        (featGroups k (files.getD (i % L) default).patches st.featIdx st.featAcc).2.1 := by
      rw [hfold.2.1, featGroups_featIdx]
    refine ⟨hrec.1, ?_, ?_, ?_⟩
    · simp only [volGlobalPatches, hga]
      rw [List.flatten_append, List.append_assoc, hrec.2.1, hidx2, hfold.2.2]
      rw [← List.append_assoc, hfold.1]
      simp [List.append_assoc]
    · simp only [volGlobalPatches, List.length_append]
      rw [hrec.2.2.1, hfold.2.1]
      omega
    · simp only [volGlobalPatches, hga]
      rw [hrec.2.2.2, hidx2, hfold.2.2]

theorem mod_succ_lt (k m : Nat) (h : m % k + 1 < k) : (m + 1) % k = m % k + 1 := by
  have hk : 1 < k := by omega
  rw [Nat.add_mod, Nat.mod_eq_of_lt hk, Nat.mod_eq_of_lt h]

theorem mod_succ_zero (k m : Nat) (hk : 1 ≤ k) (h : m % k = k - 1) :
    (m + 1) % k = 0 := by
  have hd := Nat.div_add_mod m k
  have : m + 1 = k * (m / k + 1) := by
    rw [Nat.mul_add, Nat.mul_one]
    omega
  rw [this, Nat.mul_mod_right]

theorem featGroups_small (k : Nat) : ∀ (l : List Patch) (m : Nat) (acc : List Val),
    m % k + l.length < k → (featGroups k l m acc).1 = [] := by
  intro l
  induction l with
  | nil =>
    intro m acc _
    simp [featGroups]
  | cons p ps ih =>
    intro m acc h
    simp only [List.length_cons] at h
    have h1 : (m + 1) % k = m % k + 1 := mod_succ_lt k m (by omega)
    simp only [featGroups]
    rw [if_neg (by omega)]
    apply ih
    omega

theorem featGroups_cons (k : Nat) (p : Patch) (ps : List Patch) (m : Nat)
    (acc : List Val) :
    featGroups k (p :: ps) m acc =
      if (m + 1) % k = 0 then
        ((if m % k = 0 then p else acc ++ p) ::
            (featGroups k ps (m + 1) (if m % k = 0 then p else acc ++ p)).1,
          (featGroups k ps (m + 1) (if m % k = 0 then p else acc ++ p)).2)
      else featGroups k ps (m + 1) (if m % k = 0 then p else acc ++ p) := rfl

theorem featGroups_window (k : Nat) (hk : 1 ≤ k) :
    ∀ (l : List Patch) (m : Nat) (acc : List Val),
      0 < l.length → m % k + l.length = k →
      featGroups k l m acc =
        ([(if m % k = 0 then [] else acc) ++ l.flatten], m + l.length,
         (if m % k = 0 then [] else acc) ++ l.flatten) := by
  intro l
  induction l with
  | nil =>
    intro m acc h0 _
    simp at h0
  | cons p ps ih =>
    intro m acc h0 hw
    simp only [List.length_cons] at hw
    cases ps with
    | nil =>
      have hm : m % k = k - 1 := by simp at hw; omega
      have h1 : (m + 1) % k = 0 := mod_succ_zero k m hk hm
      simp only [featGroups, h1, if_pos rfl, List.flatten_cons, List.flatten_nil,
        List.append_nil, List.length_cons, List.length_nil]
      by_cases hz : m % k = 0
      · rw [if_pos hz, if_pos hz]
        simp
      · rw [if_neg hz, if_neg hz]
        simp
    | cons q qs =>
      have h1 : (m + 1) % k = m % k + 1 := mod_succ_lt k m (by simp at hw ⊢; omega)
      have h1ne : ¬ (m + 1) % k = 0 := by omega
      rw [featGroups_cons, if_neg h1ne]
      rw [ih (m + 1) (if m % k = 0 then p else acc ++ p) (by simp)
        (by rw [h1]; simp at hw ⊢; omega)]
      rw [if_neg h1ne]
      by_cases hz : m % k = 0
      · rw [if_pos hz, if_pos hz]
        simp only [List.flatten_cons, List.nil_append, Prod.mk.injEq,
          List.length_cons, List.cons.injEq, and_true, true_and]
        omega
      · rw [if_neg hz, if_neg hz]
        simp only [List.flatten_cons, Prod.mk.injEq, List.length_cons,
          List.cons.injEq, List.append_assoc, and_true, true_and]
        omega

/-- The samples the spec expects: the `i`-th sample is the concatenation of
the `k` consecutive patches starting at global position `i * k`. -/
def groupSamples (k : Nat) (gp : List Patch) : List (List Val) :=
  (List.range (gp.length / k)).map fun i => ((gp.drop (i * k)).take k).flatten

theorem groupSamples_cons (k : Nat) (hk : 1 ≤ k) (l : List Patch)
    (hl : k ≤ l.length) :
    groupSamples k l = (l.take k).flatten :: groupSamples k (l.drop k) := by
  unfold groupSamples
  have hd : l.length / k = (l.length - k) / k + 1 :=
    Nat.div_eq_sub_div (by omega) hl
  rw [hd, List.range_succ_eq_map]
  simp only [List.map_cons, List.map_map]
  congr 1
  · simp
  · rw [List.length_drop]
    apply List.map_congr_left
    intro a _
    simp only [Function.comp_apply]
    congr 2
    rw [List.drop_drop]
    congr 1
    have : Nat.succ a = a + 1 := rfl
    rw [this]
    ring

theorem featGroups_groupSamples (k : Nat) (hk : 1 ≤ k) :
    ∀ (N : Nat) (l : List Patch) (m : Nat) (acc : List Val),
      l.length ≤ N → m % k = 0 →
      (featGroups k l m acc).1 = groupSamples k l := by
  intro N
  induction N with
  | zero =>
    intro l m acc hN _
    have hnil : l = [] := List.length_eq_zero.mp (by omega)
    subst hnil
    simp [featGroups, groupSamples]
  | succ N ihN =>
    intro l m acc hN hm
    by_cases hlen : l.length < k
    · rw [featGroups_small k l m acc (by omega)]
      unfold groupSamples
      rw [Nat.div_eq_of_lt hlen]
      simp
    · have hlk : k ≤ l.length := by omega
      conv_lhs => rw [← List.take_append_drop k l]
      rw [featGroups_append]
      have htk : (l.take k).length = k := by
        rw [List.length_take]
        omega
      have hwin := featGroups_window k hk (l.take k) m acc (by omega)
        (by rw [htk]; omega)
      rw [hwin]
      simp only [if_pos hm, List.nil_append]
      have hm2 : (m + (l.take k).length) % k = 0 := by
        rw [htk, Nat.add_mod_right, hm]
      rw [ihN (l.drop k) (m + (l.take k).length) ((l.take k).flatten)
        (by rw [List.length_drop]; omega) hm2]
      rw [groupSamples_cons k hk l hlk]
      simp

/-- C10: with `nb_feats = k`, the samples `vol` yields are, in order, the
concatenations of `k` consecutive patches of the global generation-order
patch stream — the feature counter is never reset at file or cycle
boundaries — so when the first file contributes a patch count `c` with
`c % k ≠ 0`, the sample of index `c / k` (when yielded) spans the boundary:
it concatenates the window of `k` global patches that contains both the
last patch of the first file and the first patch of the second. -/
theorem vol_feature_groups (B L k n : Nat) (yInc : Bool) (files : List VFile)
    (hk : 1 ≤ k)
    (hfiles : ∀ t, t < n → (files.getD (t % L) default).patches ≠ [] ∧
      ∀ p ∈ (files.getD (t % L) default).patches, CleanPatch p) :
    (volRun B L k yInc files n 0 ⟨[], [], 0⟩).2.2 = none ∧
    (volRun B L k yInc files n 0 ⟨[], [], 0⟩).1.flatten =
      (groupSamples k (volGlobalPatches files L n 0)).take
        (volRun B L k yInc files n 0 ⟨[], [], 0⟩).1.flatten.length ∧
    ∀ c, c = (files.getD (0 % L) default).patches.length → c % k ≠ 0 →
      (c / k * k < c ∧ c < c / k * k + k) ∧
      (c / k < (volRun B L k yInc files n 0 ⟨[], [], 0⟩).1.flatten.length →
        (volRun B L k yInc files n 0 ⟨[], [], 0⟩).1.flatten.get? (c / k) =
          some (((volGlobalPatches files L n 0).drop (c / k * k)).take k).flatten) := by
  have hG := volRun_featGroups B L k yInc files n 0 ⟨[], [], 0⟩ (by
    intro t ht
    simpa using hfiles t ht)
  have hsamples : (volRun B L k yInc files n 0 ⟨[], [], 0⟩).1.flatten ++
      (volRun B L k yInc files n 0 ⟨[], [], 0⟩).2.1.batchAcc =
      groupSamples k (volGlobalPatches files L n 0) := by
    have h1 := hG.2.1
    simp only [List.nil_append] at h1
    rw [h1]
    exact featGroups_groupSamples k hk (volGlobalPatches files L n 0).length
      (volGlobalPatches files L n 0) 0 [] le_rfl (Nat.zero_mod k)
  have htake : (volRun B L k yInc files n 0 ⟨[], [], 0⟩).1.flatten =
      (groupSamples k (volGlobalPatches files L n 0)).take
        (volRun B L k yInc files n 0 ⟨[], [], 0⟩).1.flatten.length := by
    rw [← hsamples]
    exact (List.take_left _ _).symm
  refine ⟨hG.1, htake, ?_⟩
  intro c hc hck
  have hdm := Nat.div_add_mod c k
  have hmod := Nat.mod_lt c (show 0 < k by omega)
  have hcomm : k * (c / k) = c / k * k := Nat.mul_comm _ _
  refine ⟨⟨by omega, by omega⟩, ?_⟩
  intro hlt
  have hglen : (groupSamples k (volGlobalPatches files L n 0)).length =
      (volGlobalPatches files L n 0).length / k := by
    unfold groupSamples
    simp
  have hlen2 : c / k < (groupSamples k (volGlobalPatches files L n 0)).length := by
    have hle : (volRun B L k yInc files n 0 ⟨[], [], 0⟩).1.flatten.length ≤
        (groupSamples k (volGlobalPatches files L n 0)).length := by
      conv_lhs => rw [htake]
      rw [List.length_take]
      exact Nat.min_le_right _ _
    omega
  rw [htake, List.get?_take hlt]
  unfold groupSamples
  rw [List.get?_map, List.get?_range (by rw [hglen] at hlen2; exact hlen2)]
  rfl

/-- The files of the C10 witness: the first file contributes 3 patches and
`nb_feats = 2`, so sample 1 concatenates patch 2 of the first file with
patch 0 of the second. -/
def c10files : List VFile :=
  [⟨"f0.npz", [3], [[⟨1, false, false⟩], [⟨2, false, false⟩], [⟨3, false, false⟩]]⟩,
   ⟨"f1.npz", [3], [[⟨4, false, false⟩], [⟨5, false, false⟩], [⟨6, false, false⟩]]⟩]

/-- Witness for `vol_feature_groups` at the two-file scenario above. -/
theorem vol_feature_groups_witness :
    (volRun 1 2 2 false c10files 2 0 ⟨[], [], 0⟩).2.2 = none ∧
    (volRun 1 2 2 false c10files 2 0 ⟨[], [], 0⟩).1.flatten =
      (groupSamples 2 (volGlobalPatches c10files 2 2 0)).take
        (volRun 1 2 2 false c10files 2 0 ⟨[], [], 0⟩).1.flatten.length ∧
    ∀ c, c = (c10files.getD (0 % 2) default).patches.length → c % 2 ≠ 0 →
      (c / 2 * 2 < c ∧ c < c / 2 * 2 + 2) ∧
      (c / 2 < (volRun 1 2 2 false c10files 2 0 ⟨[], [], 0⟩).1.flatten.length →
        (volRun 1 2 2 false c10files 2 0 ⟨[], [], 0⟩).1.flatten.get? (c / 2) =
          some (((volGlobalPatches c10files 2 2 0).drop (c / 2 * 2)).take 2).flatten) :=
  vol_feature_groups 1 2 2 2 false c10files (by decide) (by
    intro t ht
    have h01 : t = 0 ∨ t = 1 := by omega
    rcases h01 with h | h <;> subst h <;> exact ⟨by decide, by decide⟩)
